import Mathlib

/-! Verification of the Phrono dashboard's metrics engine.

The price data model is shallowly embedded: a price table is a list of rows
(dates in ascending order), each row a list of cells, where a cell is
`Option ℚ` and `none` models a missing value (pandas `NaN`).  Exact rational
and real arithmetic stands in for IEEE floating point; the float values
`NaN` is modelled by `none`.  The embedding is faithful on tables whose
present cells are strictly positive prices, the domain the dashboard's
metric functions are specified on (a zero price would produce an IEEE
infinity, which the `Option` model does not distinguish from `NaN`; the
theorems below therefore carry positivity hypotheses wherever zero or
negative prices would reach a division or logarithm).
-/

namespace Phrono

/-- A cell of a price table: `none` models a missing value (NaN). -/
abbrev Cell := Option ℚ

/-- A row of a table: one date, one entry per symbol column. -/
abbrev Row := List Cell

/-- A price table: rows in ascending date order. -/
abbrev Table := List Row

/-- A table of computed log returns: real-valued cells, `none` = NaN. -/
abbrev RTable := List (List (Option ℝ))

/-- Missing-value propagating division of two cells, as in `df / df.shift(1)`:
the result is missing when either operand is. -/
def odiv : Cell → Cell → Cell
  | some a, some b => some (a / b)
  | _, _ => none

/-- Cell-wise natural logarithm, as in `np.log`: a negative argument gives NaN
(`none`); an argument of zero, which would give `-inf` in floating point, is
also mapped to `none` (the theorems below never reach it: non-positive prices
are excluded by hypothesis or by `prepare_for_log_returns`). -/
noncomputable def olog : Cell → Option ℝ
  | some q => if 0 < q then some (Real.log (q : ℝ)) else none
  | none => none

/-- `DataFrame.shift(1)`: every column moves down one row and the first row
becomes all-missing. -/
def shift : Table → Table
  | [] => []
  | r :: rs => List.replicate r.length none :: List.dropLast (r :: rs)

/-- Element-wise division of two tables (`df / other`). -/
def tdiv (a b : Table) : Table := List.zipWith (List.zipWith odiv) a b

/-- Element-wise logarithm of a table (`np.log(df)`). -/
noncomputable def tlog (t : Table) : RTable := t.map (List.map olog)

/-- The raw log-return table `np.log(df / df.shift(1))`, before any row is
dropped. -/
noncomputable def rawLogTable (t : Table) : RTable := tlog (tdiv t (shift t))

/-- `df.dropna()` (default `how='any'`): keep only the rows with no missing
cell. -/
def dropnaAny {α : Type} (t : List (List (Option α))) : List (List (Option α)) :=
  t.filter (fun r => r.all Option.isSome)

/-- `df.dropna(how='all')`: drop only the rows whose cells are all missing. -/
def dropnaAll {α : Type} (t : List (List (Option α))) : List (List (Option α)) :=
  t.filter (fun r => r.any Option.isSome)

/-- `app.py`'s `log_returns`: `np.log(df / df.shift(1)).dropna()` — note the
default `dropna`, which drops every row containing any missing cell. -/
noncomputable def log_returns (t : Table) : RTable := dropnaAny (rawLogTable t)

/-- `finance_metrics.py`'s `calculate_log_returns`:
`np.log(prices / prices.shift(1)).dropna(how='all')`. -/
noncomputable def calculate_log_returns (t : Table) : RTable := dropnaAll (rawLogTable t)

/-- Column extraction (`df[col]`), with `none` for out-of-range indices. -/
def col {α : Type} (t : List (List (Option α))) (j : ℕ) : List (Option α) :=
  t.map (fun r => r.getD j none)

/-- `Series.dropna()`: the present values of a column, in order. -/
def dropnaCol {α : Type} (c : List (Option α)) : List α := c.filterMap id

/-- One forward-fill step: a missing cell takes the carried previous value. -/
def merge (p c : Cell) : Cell := match c with | some v => some v | none => p

/-- Forward fill, threading the last-seen row downwards. -/
def ffillAux : Row → Table → Table
  | _, [] => []
  | prev, r :: rs => List.zipWith merge prev r :: ffillAux (List.zipWith merge prev r) rs

/-- `df.ffill()`: per-column forward fill; leading missing values stay missing. -/
def ffill : Table → Table
  | [] => []
  | r :: rs => ffillAux (List.replicate r.length none) (r :: rs)

/-- Running maximum of a series, continuing from an already-seen maximum `m`. -/
def cummaxFrom (m : ℚ) : List ℚ → List ℚ
  | [] => []
  | x :: xs => max m x :: cummaxFrom (max m x) xs

/-- `Series.cummax()`: running maximum up to and including each point. -/
def cummax : List ℚ → List ℚ
  | [] => []
  | x :: xs => x :: cummaxFrom x xs

/-- `Series.min()`: `none` (NaN) on an empty series. -/
def listMin : List ℚ → Option ℚ
  | [] => none
  | x :: xs => some (xs.foldl min x)

/-- `app.py`'s `max_drawdown`: minimum of `(price - cummax) / cummax`. -/
def max_drawdown (p : List ℚ) : Option ℚ :=
  listMin (List.zipWith (fun x m => (x - m) / m) p (cummax p))

/-- `finance_metrics.py`'s `calculate_max_drawdown`, per column:
minimum of `price / cummax - 1`. -/
def calculate_max_drawdown (p : List ℚ) : Option ℚ :=
  listMin (List.zipWith (fun x m => x / m - 1) p (cummax p))

/-- `(df > 0)` on a cell: missing values compare as `false`, as in pandas. -/
def cellPos : Cell → Bool
  | some q => decide (0 < q)
  | none => false

/-- A cell that is present and non-zero. -/
def cellNZ : Cell → Bool
  | some q => decide (q ≠ 0)
  | none => false

/-- `finance_data.py`'s `prepare_for_log_returns`:
`df[(df > 0).all(axis=1)].dropna(how='any')`. -/
def prepare_for_log_returns (t : Table) : Table :=
  dropnaAny (t.filter (fun r => r.all cellPos))

/-- `app.py`'s `base100`: `df.divide(df.iloc[0]).multiply(100)` — every cell is
divided by the value in the first row of its column (missing or not). -/
def base100 (t : Table) : Table :=
  t.map (fun r => List.zipWith (fun c f => (odiv c f).map (fun q => q * 100)) r (t.headD []))

/-- `finance_metrics.py`'s `calculate_cumulative_returns`:
`prices / prices.iloc[0] * base`. -/
def calculate_cumulative_returns (t : Table) (base : ℚ) : Table :=
  t.map (fun r => List.zipWith (fun c f => (odiv c f).map (fun q => q * base)) r (t.headD []))

/-- `Series.mean()`: NaN (`none`) on an empty series. -/
noncomputable def smean (xs : List ℝ) : Option ℝ :=
  if xs.isEmpty then none else some (xs.sum / (xs.length : ℝ))

/-- `Series.std()`: Bessel-corrected sample standard deviation, NaN (`none`)
when fewer than 2 observations exist. -/
noncomputable def sstd (xs : List ℝ) : Option ℝ :=
  if xs.length < 2 then none
  else some (Real.sqrt
    ((xs.map (fun x => (x - xs.sum / (xs.length : ℝ)) ^ 2)).sum / ((xs.length : ℝ) - 1)))

/-- `app.py`'s `annualized_vol`: `logret.std() * np.sqrt(252)`. -/
noncomputable def annualized_vol (logret : List ℝ) : Option ℝ :=
  (sstd logret).map (fun s => s * Real.sqrt 252)

open Classical in
/-- `app.py`'s `sharpe_ratio` with the default 252 trading days:
`mu = mean * 252`, `sigma = std * sqrt(252)`, and the explicit branch
`(mu - rf) / sigma if sigma != 0 else np.nan`.  A NaN `mu` or `sigma`
(series shorter than 2) also yields NaN, as in floating point. -/
noncomputable def sharpe_ratio (logret : List ℝ) (rf : ℝ) : Option ℝ :=
  match smean logret, sstd logret with
  | some m, some s =>
      if s * Real.sqrt 252 = 0 then none
      else some ((m * 252 - rf) / (s * Real.sqrt 252))
  | _, _ => none

/-- An IEEE result value: finite, NaN, or a signed infinity.  Needed for
`calculate_sharpe_ratio`, which can divide a non-zero mean by a zero
standard deviation. -/
inductive FVal where
  | nan : FVal
  | fin : ℝ → FVal
  | pinf : FVal
  | ninf : FVal

open Classical in
/-- `finance_metrics.py`'s `calculate_sharpe_ratio`, per column:
`excess = returns - rf`, then `excess.mean() / excess.std() * sqrt(252)`.
There is no zero-variance branch, so a zero standard deviation produces a
signed infinity (or NaN when the mean excess return is also zero), exactly
as float division does. -/
noncomputable def calculate_sharpe_ratio (returns : List ℝ) (rf : ℝ) : FVal :=
  let ex := returns.map (fun x => x - rf)
  match smean ex, sstd ex with
  | some m, some s =>
      if s = 0 then (if 0 < m then FVal.pinf else if m < 0 then FVal.ninf else FVal.nan)
      else FVal.fin (m / s * Real.sqrt 252)
  | _, _ => FVal.nan

/-- The cumulative return `np.exp(lr.sum()) - 1` used by `compute_kpis`. -/
noncomputable def cumulative_return (lr : List ℝ) : ℝ := Real.exp lr.sum - 1

/-- Apply a binary operation to two cells, missing if either is. -/
def obin (f : ℚ → ℚ → ℚ) : Cell → Cell → Cell
  | some a, some b => some (f a b)
  | _, _ => none

/-- The "Daily Return" expression of `compute_kpis`:
`prices_df[col].iloc[-1] / prices_df[col].iloc[-2] - 1 if shape[0] >= 2 else 0`.
The column includes its missing cells, so the ratio can be NaN. -/
def daily_ret (c : List Cell) : Option ℚ :=
  if 2 ≤ c.length then
    obin (fun a b => a / b - 1) (c.getD (c.length - 1) none) (c.getD (c.length - 2) none)
  else some 0

/-- The KPI record `compute_kpis` builds for one symbol. -/
structure KPI where
  dailyReturn : Option ℚ
  annVol : Option ℝ
  sharpe : Option ℝ
  cumReturn : ℝ
  maxDD : Option ℚ

/-- The valid log returns `compute_kpis` uses for column `j`:
`lret = log_returns(prices_df.ffill().dropna()).dropna()`, then
`lr = lret[col].dropna()`. -/
noncomputable def kpiCol (t : Table) (j : ℕ) : List ℝ :=
  dropnaCol (col (dropnaAny (log_returns (dropnaAny (ffill t)))) j)

/-- The body of `compute_kpis` for column `j`: skip the symbol if its valid
return series is empty (the loop's `continue`), otherwise build its KPI
record. -/
noncomputable def kpiAt (t : Table) (j : ℕ) : Option KPI :=
  if (kpiCol t j).isEmpty then none
  else some ⟨daily_ret (col t j), annualized_vol (kpiCol t j), sharpe_ratio (kpiCol t j) 0,
    cumulative_return (kpiCol t j), max_drawdown (dropnaCol (col t j))⟩

/-- `app.py`'s `compute_kpis` over a table of width `w`: one optional KPI
record per column, `none` where the symbol was skipped. -/
noncomputable def compute_kpis (t : Table) (w : ℕ) : List (Option KPI) :=
  (List.range w).map (kpiAt t)

/-- Cell-wise log-ratio of two rows: the transparent reading of
"ln(P_t / P_{t-1}) per column" for one consecutive pair of rows. -/
noncomputable def rowLogDiv (cur prev : Row) : List (Option ℝ) :=
  List.zipWith (fun c p => olog (odiv c p)) cur prev

/-- The consecutive-pairs log-return table: row `i` of the result is the
cell-wise log-ratio of source rows `i+1` and `i`. -/
noncomputable def pairsFrom (prev : Row) : List Row → RTable
  | [] => []
  | r :: rs => rowLogDiv r prev :: pairsFrom r rs

/-- Log returns of a fully populated single column of prices. -/
noncomputable def logRetQ : List ℚ → List ℝ
  | a :: b :: rest => Real.log ((b : ℝ) / (a : ℝ)) :: logRetQ (b :: rest)
  | _ => []

/-- The rational values of column `j` (0 standing in for missing cells;
used only on fully populated tables). -/
def colVals (t : Table) (j : ℕ) : List ℚ := t.map (fun r => (r.getD j none).getD 0)

/-- Every row of the table has width `w`. -/
def rowsWidth (t : Table) (w : ℕ) : Prop := ∀ r ∈ t, r.length = w

/-- Every cell of the table is present and strictly positive. -/
def PosTable (t : Table) : Prop := ∀ r ∈ t, ∀ c ∈ r, cellPos c = true

/-- First non-missing value of a column (used by the spec's wording for
base-100 normalization, not by the code). -/
def firstNonMissing (c : List Cell) : Cell := (c.filterMap id).head?

/-- Reference definition following the spec's words for `normalize_base100`:
"divides every column by its own first non-missing value and multiplies
by 100".  Declared only to compare `base100` against the spec's description. -/
def specNormalizeBase100 (t : Table) : Table :=
  t.map (fun r => r.mapIdx (fun j c => (odiv c (firstNonMissing (col t j))).map (fun q => q * 100)))

/-! Section: Structural helper lemmas -/

theorem zipWith_congr_of_mem {α β γ : Type} (f g : α → β → γ) :
    ∀ (l₁ : List α) (l₂ : List β), (∀ a ∈ l₁, ∀ b ∈ l₂, f a b = g a b) →
      List.zipWith f l₁ l₂ = List.zipWith g l₁ l₂ := by
  intro l₁
  induction l₁ with
  | nil => intro l₂ _; simp
  | cons a as ih =>
      intro l₂ h
      cases l₂ with
      | nil => simp
      | cons b bs =>
          simp only [List.zipWith_cons_cons]
          refine congrArg₂ _ (h a (by simp) b (by simp)) ?_
          exact ih bs (fun x hx y hy => h x (by simp [hx]) y (by simp [hy]))

theorem mem_zipWith_imp {α β γ : Type} (f : α → β → γ) (P : α → Prop) (Q : β → Prop)
    (R : γ → Prop) (h : ∀ a b, P a → Q b → R (f a b)) :
    ∀ (l₁ : List α) (l₂ : List β), (∀ x ∈ l₁, P x) → (∀ y ∈ l₂, Q y) →
      ∀ z ∈ List.zipWith f l₁ l₂, R z := by
  intro l₁
  induction l₁ with
  | nil => intro l₂ _ _ z hz; simp at hz
  | cons a as ih =>
      intro l₂ h₁ h₂ z hz
      cases l₂ with
      | nil => simp at hz
      | cons b bs =>
          simp only [List.zipWith_cons_cons, List.mem_cons] at hz
          rcases hz with hz | hz
          · subst hz
            exact h a b (h₁ a (by simp)) (h₂ b (by simp))
          · exact ih bs (fun x hx => h₁ x (by simp [hx]))
              (fun y hy => h₂ y (by simp [hy])) z hz

theorem zipWith_diag {α β : Type} (f : α → α → β) :
    ∀ l : List α, List.zipWith f l l = l.map (fun a => f a a) := by
  intro l
  induction l with
  | nil => simp
  | cons a as ih => simp [List.zipWith_cons_cons, ih]

theorem cellPos_iff (c : Cell) : cellPos c = true ↔ ∃ q : ℚ, c = some q ∧ 0 < q := by
  cases c with
  | none => simp [cellPos]
  | some q => simp [cellPos]

/-! Section: C9: `prepare_for_log_returns` keeps only fully positive rows -/

/-- C9.  `prepare_for_log_returns` returns only rows in which every price is
present and strictly positive; consequently every present cell of the ratio
table `df / df.shift(1)` computed from its output is strictly positive, so
the log-return computation never takes the logarithm of a non-positive
number. -/
theorem prepare_for_log_returns_safe (t : Table) :
    (∀ r ∈ prepare_for_log_returns t, ∀ c ∈ r, ∃ q : ℚ, c = some q ∧ 0 < q) ∧
    (∀ row ∈ tdiv (prepare_for_log_returns t) (shift (prepare_for_log_returns t)),
      ∀ c ∈ row, ∀ q : ℚ, c = some q → 0 < q) := by
  have hrows : ∀ r ∈ prepare_for_log_returns t, ∀ c ∈ r, ∃ q : ℚ, c = some q ∧ 0 < q := by
    intro r hr c hc
    simp only [prepare_for_log_returns, dropnaAny] at hr
    have hall : (r.all cellPos) = true := (List.mem_filter.mp (List.mem_filter.mp hr).1).2
    rw [List.all_eq_true] at hall
    exact (cellPos_iff c).mp (hall c hc)
  refine ⟨hrows, ?_⟩
  set P := prepare_for_log_returns t with hP
  have hshift : ∀ r ∈ shift P, ∀ c ∈ r, c = none ∨ ∃ q : ℚ, c = some q ∧ 0 < q := by
    intro r hr c hc
    cases hQ : P with
    | nil => rw [hQ] at hr; simp [shift] at hr
    | cons r0 rs =>
        rw [hQ] at hr
        simp only [shift, List.mem_cons] at hr
        rcases hr with hr | hr
        · subst hr
          left
          exact List.eq_of_mem_replicate hc
        · right
          have hrP : r ∈ P := by
            rw [hQ]
            exact (List.dropLast_sublist _).subset hr
          exact hrows r hrP c hc
  intro row hrow c hc
  have hcell : ∀ (a b : Cell), (∃ q : ℚ, a = some q ∧ 0 < q) →
      (b = none ∨ ∃ q : ℚ, b = some q ∧ 0 < q) →
      (∀ q : ℚ, odiv a b = some q → 0 < q) := by
    rintro a b ⟨qa, rfl, hqa⟩ (rfl | ⟨qb, rfl, hqb⟩)
    · intro q hq; simp [odiv] at hq
    · intro q hq
      simp only [odiv, Option.some.injEq] at hq
      subst hq
      exact div_pos hqa hqb
  have hrowprop : ∀ (a b : Row), (∀ c ∈ a, ∃ q : ℚ, c = some q ∧ 0 < q) →
      (∀ c ∈ b, c = none ∨ ∃ q : ℚ, c = some q ∧ 0 < q) →
      ∀ c ∈ List.zipWith odiv a b, ∀ q : ℚ, c = some q → 0 < q :=
    fun a b ha hb => mem_zipWith_imp odiv _ _ _ hcell a b ha hb
  exact mem_zipWith_imp (List.zipWith odiv)
    (fun r => ∀ c ∈ r, ∃ q : ℚ, c = some q ∧ 0 < q)
    (fun r => ∀ c ∈ r, c = none ∨ ∃ q : ℚ, c = some q ∧ 0 < q)
    (fun r => ∀ c ∈ r, ∀ q : ℚ, c = some q → 0 < q)
    hrowprop P (shift P) hrows hshift row hrow c hc

/-- Witness for C9 at the concrete table `[[-1], [2], [3]]`: the row `[-1]`
is filtered out, the surviving cell `2` is present and positive. -/
theorem prepare_for_log_returns_safe_witness :
    ([some (2:ℚ)] ∈ prepare_for_log_returns [[some (-1:ℚ)], [some 2], [some 3]]) ∧
    (0:ℚ) < 2 := by
  constructor
  · decide
  · obtain ⟨q, hq, hqpos⟩ := (prepare_for_log_returns_safe
      [[some (-1:ℚ)], [some 2], [some 3]]).1 [some 2] (by decide) (some 2) (by decide)
    rw [Option.some.inj hq]
    exact hqpos

/-! Section: C3: maximum drawdown is non-positive -/

theorem cummaxFrom_pos (xs : List ℚ) :
    ∀ m : ℚ, 0 < m → (∀ x ∈ xs, 0 < x) → ∀ y ∈ cummaxFrom m xs, 0 < y := by
  induction xs with
  | nil => intro m _ _ y hy; simp [cummaxFrom] at hy
  | cons x rest ih =>
      intro m hm hpos y hy
      simp only [cummaxFrom, List.mem_cons] at hy
      have hmx : 0 < max m x := lt_max_of_lt_left hm
      rcases hy with hy | hy
      · exact hy ▸ hmx
      · exact ih (max m x) hmx (fun z hz => hpos z (by simp [hz])) y hy

theorem dd_entries_nonpos (xs : List ℚ) :
    ∀ m : ℚ, 0 < m → (∀ x ∈ xs, 0 < x) →
      ∀ y ∈ List.zipWith (fun x mm => (x - mm) / mm) xs (cummaxFrom m xs), y ≤ 0 := by
  induction xs with
  | nil => intro m _ _ y hy; simp [cummaxFrom] at hy
  | cons x rest ih =>
      intro m hm hpos y hy
      simp only [cummaxFrom, List.zipWith_cons_cons, List.mem_cons] at hy
      have hmx : 0 < max m x := lt_max_of_lt_left hm
      rcases hy with hy | hy
      · subst hy
        apply div_nonpos_iff.mpr
        exact Or.inr ⟨sub_nonpos.mpr (le_max_right m x), le_of_lt hmx⟩
      · exact ih (max m x) hmx (fun z hz => hpos z (by simp [hz])) y hy

theorem foldl_min_nonpos (l : List ℚ) :
    ∀ a : ℚ, a ≤ 0 → (∀ x ∈ l, x ≤ 0) → l.foldl min a ≤ 0 := by
  induction l with
  | nil => intro a ha _; simpa using ha
  | cons x rest ih =>
      intro a ha hl
      simp only [List.foldl_cons]
      exact ih (min a x) (min_le_of_left_le ha) (fun z hz => hl z (by simp [hz]))

theorem foldl_min_zero (l : List ℚ) (hl : ∀ x ∈ l, x = 0) : l.foldl min 0 = 0 := by
  induction l with
  | nil => simp
  | cons x rest ih =>
      have hx : x = 0 := hl x (by simp)
      simp only [List.foldl_cons, hx, min_self]
      exact ih (fun z hz => hl z (by simp [hz]))

theorem cummaxFrom_of_chain (xs : List ℚ) :
    ∀ m : ℚ, List.Chain' (fun a b => a < b) (m :: xs) → cummaxFrom m xs = xs := by
  induction xs with
  | nil => intro m _; simp [cummaxFrom]
  | cons x rest ih =>
      intro m hchain
      have hmx : m < x := (List.chain'_cons.mp hchain).1
      have htail : List.Chain' (fun a b => a < b) (x :: rest) := (List.chain'_cons.mp hchain).2
      simp only [cummaxFrom, max_eq_right (le_of_lt hmx)]
      exact congrArg _ (ih x htail)

/-- C3.  For every non-empty series of strictly positive prices, both
`max_drawdown` (app.py) and `calculate_max_drawdown` (finance_metrics.py)
return the same value `v ≤ 0`, and for a strictly increasing series `v = 0`. -/
theorem max_drawdown_nonpos (p : List ℚ) (hne : p ≠ []) (hpos : ∀ x ∈ p, 0 < x) :
    ∃ v : ℚ, max_drawdown p = some v ∧ calculate_max_drawdown p = some v ∧ v ≤ 0 ∧
      (List.Chain' (fun a b => a < b) p → v = 0) := by
  obtain ⟨x, xs, rfl⟩ := List.exists_cons_of_ne_nil hne
  have hxpos : 0 < x := hpos x (by simp)
  have hxspos : ∀ z ∈ xs, 0 < z := fun z hz => hpos z (by simp [hz])
  have hcmpos : ∀ y ∈ cummaxFrom x xs, 0 < y := cummaxFrom_pos xs x hxpos hxspos
  have hdd0 : (x - x) / x = 0 := by simp
  refine ⟨(List.zipWith (fun z mm => (z - mm) / mm) xs (cummaxFrom x xs)).foldl min 0, ?_, ?_, ?_, ?_⟩
  · simp only [max_drawdown, cummax, List.zipWith_cons_cons, listMin, hdd0]
  · have hzip : List.zipWith (fun z mm => z / mm - 1) (x :: xs) (cummax (x :: xs)) =
        List.zipWith (fun z mm => (z - mm) / mm) (x :: xs) (cummax (x :: xs)) := by
      apply zipWith_congr_of_mem
      intro a _ b hb
      have hbpos : 0 < b := by
        simp only [cummax, List.mem_cons] at hb
        rcases hb with hb | hb
        · exact hb ▸ hxpos
        · exact hcmpos b hb
      rw [sub_div, div_self (ne_of_gt hbpos)]
    simp only [calculate_max_drawdown]
    rw [hzip]
    simp only [cummax, List.zipWith_cons_cons, listMin, hdd0]
  · exact foldl_min_nonpos _ 0 le_rfl (dd_entries_nonpos xs x hxpos hxspos)
  · intro hchain
    rw [cummaxFrom_of_chain xs x hchain, zipWith_diag]
    apply foldl_min_zero
    intro z hz
    obtain ⟨a, _, rfl⟩ := List.mem_map.mp hz
    simp

/-- Witness for C3 at the strictly increasing positive series `[1, 2]`. -/
theorem max_drawdown_nonpos_witness :
    max_drawdown [(1:ℚ), 2] = some 0 ∧ calculate_max_drawdown [(1:ℚ), 2] = some 0 := by
  obtain ⟨v, hv1, hv2, -, hv4⟩ := max_drawdown_nonpos [1, 2] (by decide) (by decide)
  have hv0 : v = 0 := hv4 (List.chain'_pair.mpr (by norm_num))
  rw [hv0] at hv1 hv2
  exact ⟨hv1, hv2⟩

/-! Section: Closed form of the raw log-return table -/

theorem map_olog_zipWith (c : List Cell) :
    ∀ p : List Cell, List.map olog (List.zipWith odiv c p) = rowLogDiv c p := by
  induction c with
  | nil => intro p; simp [rowLogDiv]
  | cons a as ih =>
      intro p
      cases p with
      | nil => simp [rowLogDiv]
      | cons b bs =>
          simp only [List.zipWith_cons_cons, List.map_cons]
          rw [ih bs]
          rfl

theorem row_div_nanrow (r : Row) :
    List.map olog (List.zipWith odiv r (List.replicate r.length (none : Cell))) =
      List.replicate r.length (none : Option ℝ) := by
  induction r with
  | nil => simp
  | cons a as ih => simpa [List.replicate_succ, List.zipWith_cons_cons, odiv, olog] using ih

theorem pairs_aux (rs : List Row) :
    ∀ prev : Row,
      List.map (List.map olog)
        (List.zipWith (List.zipWith odiv) rs ((prev :: rs).dropLast)) = pairsFrom prev rs := by
  induction rs with
  | nil => intro prev; simp [pairsFrom]
  | cons b cs ih =>
      intro prev
      rw [List.dropLast_cons₂]
      simp only [List.zipWith_cons_cons, List.map_cons, pairsFrom]
      exact congrArg₂ _ (map_olog_zipWith b prev) (ih b)

theorem rawLogTable_cons (r0 : Row) (rs : List Row) :
    rawLogTable (r0 :: rs) =
      List.replicate r0.length (none : Option ℝ) :: pairsFrom r0 rs := by
  simp only [rawLogTable, tdiv, tlog, shift, List.zipWith_cons_cons, List.map_cons]
  exact congrArg₂ _ (row_div_nanrow r0) (pairs_aux rs r0)

theorem replicate_none_any (n : ℕ) :
    (List.replicate n (none : Option ℝ)).any Option.isSome = false := by
  induction n with
  | zero => rfl
  | succ k ih => simp [List.replicate_succ, ih]

theorem replicate_none_all (n : ℕ) (hn : 0 < n) :
    (List.replicate n (none : Option ℝ)).all Option.isSome = false := by
  cases n with
  | zero => exact absurd hn (by simp)
  | succ k => simp [List.replicate_succ]

/-- `calculate_log_returns` in closed form: the first (all-missing) row of the
raw table is dropped, and of the consecutive-pairs rows exactly those with at
least one present cell survive. -/
theorem calculate_log_returns_closed (r0 : Row) (rs : List Row) :
    calculate_log_returns (r0 :: rs) =
      (pairsFrom r0 rs).filter (fun r => r.any Option.isSome) := by
  rw [calculate_log_returns, rawLogTable_cons, dropnaAll, List.filter_cons]
  simp [replicate_none_any]

/-- `app.py`'s `log_returns` in closed form (for a table of width at least 1):
the first row is dropped, and only the consecutive-pairs rows with no missing
cell at all survive. -/
theorem log_returns_closed (r0 : Row) (rs : List Row) (h : r0 ≠ []) :
    log_returns (r0 :: rs) =
      (pairsFrom r0 rs).filter (fun r => r.all Option.isSome) := by
  rw [log_returns, rawLogTable_cons, dropnaAny, List.filter_cons]
  have hlen : 0 < r0.length := List.length_pos.mpr h
  simp [replicate_none_all r0.length hlen]

theorem rowLogDiv_getD (cur : Row) :
    ∀ (prev : Row) (j : ℕ), j < cur.length → j < prev.length →
      (rowLogDiv cur prev).getD j none = olog (odiv (cur.getD j none) (prev.getD j none)) := by
  induction cur with
  | nil => intro prev j h1 _; simp at h1
  | cons a as ih =>
      intro prev j h1 h2
      cases prev with
      | nil => simp at h2
      | cons b bs =>
          cases j with
          | zero => rfl
          | succ k =>
              simp only [rowLogDiv, List.zipWith_cons_cons, List.getD_cons_succ]
              simpa [rowLogDiv] using
                ih bs k (Nat.lt_of_succ_lt_succ h1) (Nat.lt_of_succ_lt_succ h2)

/-! Section: C5 (amended): row-dropping policy of the two log-return functions -/

/-- C5 (amended).  Both log-return functions compute the cell-wise
`ln(P_t / P_{t-1})` over consecutive rows and drop the (all-missing) first
row.  `calculate_log_returns` (finance_metrics.py) then drops exactly the
rows that are missing in every column and keeps rows missing in only some
columns, with the missing cells left in place; `log_returns` (app.py)
instead keeps only the rows with no missing cell at all. -/
theorem log_returns_row_policy (r0 : Row) (rs : List Row) :
    calculate_log_returns (r0 :: rs) =
      (pairsFrom r0 rs).filter (fun r => r.any Option.isSome) ∧
    (r0 ≠ [] → log_returns (r0 :: rs) =
      (pairsFrom r0 rs).filter (fun r => r.all Option.isSome)) ∧
    (∀ (cur prev : Row) (j : ℕ), j < cur.length → j < prev.length →
      (rowLogDiv cur prev).getD j none = olog (odiv (cur.getD j none) (prev.getD j none))) :=
  ⟨calculate_log_returns_closed r0 rs,
   fun h => log_returns_closed r0 rs h,
   fun cur prev j h1 h2 => rowLogDiv_getD cur prev j h1 h2⟩

/-- Witness for C5 at the two-row single-column table `[[1], [2]]`. -/
theorem log_returns_row_policy_witness :
    calculate_log_returns [[some (1:ℚ)], [some 2]] =
      (pairsFrom [some (1:ℚ)] [[some 2]]).filter (fun r => r.any Option.isSome) ∧
    log_returns [[some (1:ℚ)], [some 2]] =
      (pairsFrom [some (1:ℚ)] [[some 2]]).filter (fun r => r.all Option.isSome) := by
  have h := log_returns_row_policy [some (1:ℚ)] [[some 2]]
  exact ⟨h.1, h.2.1 (by decide)⟩

/-- Counterexample to C5 as stated: on the table whose second column is
missing at the middle date, the dashboard's `log_returns` drops the two
partially-missing return rows entirely (result `[]`), while
`calculate_log_returns` retains them with the missing cells in place. -/
theorem log_returns_mixed_row_counterexample :
    log_returns [[some 1, some 1], [some 2, none], [some 3, some 3]] = [] ∧
    (calculate_log_returns [[some 1, some 1], [some 2, none], [some 3, some 3]]).map
      (fun r => r.map Option.isSome) = [[true, false], [true, false]] := by
  constructor
  · rw [log_returns_closed _ _ (by decide)]
    norm_num [pairsFrom, rowLogDiv, odiv, olog]
  · rw [calculate_log_returns_closed]
    norm_num [pairsFrom, rowLogDiv, odiv, olog]

/-! Section: C1: Sharpe ratio on zero-variance return series -/

theorem smean_const (lr : List ℝ) (c : ℝ) (hne : lr ≠ []) (hconst : ∀ x ∈ lr, x = c) :
    smean lr = some c := by
  have hrep : lr = List.replicate lr.length c := List.eq_replicate_length.mpr hconst
  have hsum : lr.sum = (lr.length : ℝ) * c := by
    conv_lhs => rw [hrep]
    rw [List.sum_replicate]
    exact nsmul_eq_mul _ _
  have hlen : (0:ℝ) < (lr.length : ℝ) := by
    exact_mod_cast List.length_pos.mpr hne
  rw [smean, if_neg (by simp [hne])]
  rw [hsum, mul_div_cancel_left₀ c (ne_of_gt hlen)]

theorem sstd_const (lr : List ℝ) (c : ℝ) (h2 : 2 ≤ lr.length) (hconst : ∀ x ∈ lr, x = c) :
    sstd lr = some 0 := by
  have hne : lr ≠ [] := by
    intro h
    rw [h] at h2
    simp at h2
  have hrep : lr = List.replicate lr.length c := List.eq_replicate_length.mpr hconst
  have hsum : lr.sum = (lr.length : ℝ) * c := by
    conv_lhs => rw [hrep]
    rw [List.sum_replicate]
    exact nsmul_eq_mul _ _
  have hlen : (0:ℝ) < (lr.length : ℝ) := by
    exact_mod_cast List.length_pos.mpr hne
  have hmean : lr.sum / (lr.length : ℝ) = c := by
    rw [hsum, mul_div_cancel_left₀ c (ne_of_gt hlen)]
  have hmap : lr.map (fun x => (x - lr.sum / (lr.length : ℝ)) ^ 2) =
      List.replicate lr.length 0 := by
    refine List.eq_replicate_iff.mpr ⟨by simp, ?_⟩
    intro b hb
    obtain ⟨x, hx, rfl⟩ := List.mem_map.mp hb
    rw [hconst x hx, hmean]
    simp
  rw [sstd, if_neg (by omega), hmap]
  simp

/-- C1 (amended).  `app.py`'s `sharpe_ratio` returns NaN — not an infinity and
not an exception — on every return series of at least 2 observations with
zero variance (a constant series), via its explicit `sigma != 0` branch. -/
theorem sharpe_ratio_zero_variance_nan (lr : List ℝ) (c rf : ℝ)
    (h2 : 2 ≤ lr.length) (hconst : ∀ x ∈ lr, x = c) :
    sharpe_ratio lr rf = none := by
  have hne : lr ≠ [] := by
    intro h
    rw [h] at h2
    simp at h2
  have hm : smean lr = some c := smean_const lr c hne hconst
  have hs : sstd lr = some 0 := sstd_const lr c h2 hconst
  simp [sharpe_ratio, hm, hs]

/-- Witness for C1 at the constant series `[1, 1]`. -/
theorem sharpe_ratio_zero_variance_nan_witness :
    2 ≤ ([(1:ℝ), 1]).length ∧ sharpe_ratio [(1:ℝ), 1] 0 = none := by
  refine ⟨by decide, sharpe_ratio_zero_variance_nan [(1:ℝ), 1] 1 0 (by decide) ?_⟩
  intro x hx
  rcases List.mem_cons.mp hx with rfl | hx
  · rfl
  · rcases List.mem_cons.mp hx with rfl | hx
    · rfl
    · simp at hx

/-- Counterexample to C1 as stated: `finance_metrics.py`'s
`calculate_sharpe_ratio` has no zero-variance branch, and on the constant
return series `[1, 1]` (zero variance, positive mean) it divides a positive
mean by a zero standard deviation, producing positive infinity — not NaN. -/
theorem calculate_sharpe_ratio_inf_counterexample :
    calculate_sharpe_ratio [(1:ℝ), 1] 0 = FVal.pinf ∧ FVal.pinf ≠ FVal.nan := by
  constructor
  · have hmap : ([(1:ℝ), 1].map (fun x => x - 0)) = [1, 1] := by norm_num
    have hm : smean [(1:ℝ), 1] = some 1 := by
      apply smean_const _ _ (by simp)
      intro x hx
      rcases List.mem_cons.mp hx with rfl | hx
      · rfl
      · rcases List.mem_cons.mp hx with rfl | hx
        · rfl
        · simp at hx
    have hs : sstd [(1:ℝ), 1] = some 0 := by
      apply sstd_const _ 1 (by decide)
      intro x hx
      rcases List.mem_cons.mp hx with rfl | hx
      · rfl
      · rcases List.mem_cons.mp hx with rfl | hx
        · rfl
        · simp at hx
    simp [calculate_sharpe_ratio, hmap, hm, hs]
  · intro h
    exact FVal.noConfusion h

/-! Section: C4: base-100 normalization -/

theorem cellNZ_iff (c : Cell) : cellNZ c = true ↔ ∃ q : ℚ, c = some q ∧ q ≠ 0 := by
  cases c with
  | none => simp [cellNZ]
  | some q => simp [cellNZ]

/-- C4 (amended).  `base100` and `calculate_cumulative_returns` divide every
cell by the value in the first row of its column (a missing first-row value
makes the whole column missing, rather than falling back to the first
non-missing value as the spec's wording says); when the first row is fully
populated with non-zero prices, the first row of the result is 100 (resp.
the chosen base) in every column. -/
theorem base100_first_row_100 (r0 : Row) (rs : List Row)
    (hnz : ∀ c ∈ r0, cellNZ c = true) :
    (base100 (r0 :: rs)).head? = some (r0.map (fun _ => some (100:ℚ))) ∧
    (∀ b : ℚ, (calculate_cumulative_returns (r0 :: rs) b).head? =
      some (r0.map (fun _ => some b))) := by
  have hcell : ∀ (b : ℚ), ∀ c ∈ r0, (odiv c c).map (fun q => q * b) = some b := by
    intro b c hc
    obtain ⟨q, rfl, hq⟩ := (cellNZ_iff c).mp (hnz c hc)
    simp [odiv, div_self hq]
  constructor
  · simp only [base100, List.map_cons, List.head?_cons, List.headD_cons, Option.some.injEq]
    rw [zipWith_diag]
    exact List.map_congr_left (hcell 100)
  · intro b
    simp only [calculate_cumulative_returns, List.map_cons, List.head?_cons,
      List.headD_cons, Option.some.injEq]
    rw [zipWith_diag]
    exact List.map_congr_left (hcell b)

/-- Witness for C4 at the table `[[2], [4]]`. -/
theorem base100_first_row_100_witness :
    (base100 [[some (2:ℚ)], [some 4]]).head? = some [some (100:ℚ)] ∧
    (calculate_cumulative_returns [[some (2:ℚ)], [some 4]] 100).head? =
      some [some (100:ℚ)] := by
  have h := base100_first_row_100 [some (2:ℚ)] [[some 4]] (by decide)
  exact ⟨h.1, h.2 100⟩

/-- Counterexample to C4 as stated: on the single-column table whose first
value is missing and second value is 2, the code's `base100` (divide by the
first row) yields an all-missing column, while the spec's description
(divide by the first non-missing value) yields 100 at the second row. -/
theorem base100_spec_mismatch :
    base100 [[none], [some 2]] ≠ specNormalizeBase100 [[none], [some 2]] := by
  decide

/-! Section: C7: single-row price tables and short series -/

theorem merge_nanrow (r : Row) :
    List.zipWith merge (List.replicate r.length none) r = r := by
  induction r with
  | nil => rfl
  | cons a as ih =>
      have hm : merge none a = a := by cases a <;> rfl
      simp only [List.length_cons, List.replicate_succ, List.zipWith_cons_cons, hm, ih]

theorem log_returns_nil : log_returns [] = [] := rfl

theorem kpiCol_single (r : Row) (j : ℕ) : kpiCol [r] j = [] := by
  have hff : ffill [r] = [List.zipWith merge (List.replicate r.length none) r] := rfl
  rw [kpiCol, hff, merge_nanrow]
  by_cases hall : r.all Option.isSome
  · have hbase : dropnaAny [r] = [r] := by simp [dropnaAny, hall]
    rw [hbase]
    by_cases hr : r = []
    · subst hr
      rw [log_returns, rawLogTable_cons]
      simp [pairsFrom, dropnaAny, col, dropnaCol]
    · rw [log_returns_closed r [] hr]
      simp [pairsFrom, dropnaAny, col, dropnaCol]
  · have hbase : dropnaAny [r] = [] := by simp [dropnaAny, hall]
    rw [hbase, log_returns_nil]
    simp [dropnaAny, col, dropnaCol]

/-- C7 (amended).  For a single-row price table the log-return table is empty
(for both implementations), annualized volatility and the Sharpe ratio of the
resulting empty return series are NaN, the maximum drawdown of the one-point
price series is 0, and `compute_kpis` omits the symbol's record entirely;
annualized volatility is NaN whenever fewer than 2 observations exist.  The
cumulative return of the empty return series, however, is `exp(0) - 1 = 0`,
not NaN as the claim states. -/
theorem single_row_metrics :
    (∀ r : Row, r ≠ [] → log_returns [r] = []) ∧
    (∀ r : Row, calculate_log_returns [r] = []) ∧
    (∀ lr : List ℝ, lr.length < 2 → annualized_vol lr = none) ∧
    (∀ rf : ℝ, sharpe_ratio [] rf = none) ∧
    cumulative_return [] = 0 ∧
    (∀ q : ℚ, 0 < q → max_drawdown [q] = some 0) ∧
    (∀ (r : Row) (j : ℕ), kpiAt [r] j = none) := by
  refine ⟨?_, ?_, ?_, ?_, ?_, ?_, ?_⟩
  · intro r hr
    rw [log_returns_closed r [] hr]
    rfl
  · intro r
    rw [calculate_log_returns_closed r []]
    rfl
  · intro lr h
    simp [annualized_vol, sstd, h]
  · intro rf
    simp [sharpe_ratio, smean, sstd]
  · simp [cumulative_return]
  · intro q _
    simp [max_drawdown, cummax, cummaxFrom, listMin]
  · intro r j
    simp [kpiAt, kpiCol_single]

/-- Witness for C7 at the single-row table `[[5]]` and the one-element return
series `[1]`. -/
theorem single_row_metrics_witness :
    log_returns [[some (5:ℚ)]] = [] ∧ annualized_vol [(1:ℝ)] = none ∧
    max_drawdown [(5:ℚ)] = some 0 ∧ kpiAt [[some (5:ℚ)]] 0 = none := by
  have h := single_row_metrics
  exact ⟨h.1 [some 5] (by decide), h.2.2.1 [(1:ℝ)] (by decide),
    h.2.2.2.2.2.1 5 (by decide), h.2.2.2.2.2.2 [some 5] 0⟩

/-- Counterexample to C7 as stated: for the single-row table `[[100]]` the
log-return series is empty and the cumulative return `exp(sum) - 1` of the
empty series is the real number 0 — not NaN. -/
theorem cumulative_return_empty_zero :
    calculate_log_returns [[some (100:ℚ)]] = [] ∧ cumulative_return [] = 0 := by
  constructor
  · rw [calculate_log_returns_closed [some (100:ℚ)] []]
    rfl
  · simp [cumulative_return]

/-! Section: Fully populated positive tables: the per-column bridge -/

theorem getD_mem_of_lt {α : Type} (l : List α) (d : α) :
    ∀ j : ℕ, j < l.length → l.getD j d ∈ l := by
  induction l with
  | nil => intro j h; simp at h
  | cons a as ih =>
      intro j h
      cases j with
      | zero => simp
      | succ k =>
          rw [List.getD_cons_succ]
          exact List.mem_cons_of_mem a (ih k (Nat.lt_of_succ_lt_succ h))

theorem zipWith_merge_full (r : Row) :
    ∀ prev : Row, r.length ≤ prev.length → r.all Option.isSome = true →
      List.zipWith merge prev r = r := by
  induction r with
  | nil => intro prev _ _; simp
  | cons a as ih =>
      intro prev hlen hfull
      cases prev with
      | nil => simp at hlen
      | cons p ps =>
          rw [List.all_cons, Bool.and_eq_true] at hfull
          obtain ⟨v, rfl⟩ := Option.isSome_iff_exists.mp hfull.1
          simp only [List.zipWith_cons_cons, merge]
          rw [ih ps (by simpa using hlen) hfull.2]

theorem ffillAux_full (t : Table) :
    ∀ (prev : Row) (w : ℕ), prev.length = w → rowsWidth t w →
      (∀ r ∈ t, r.all Option.isSome = true) → ffillAux prev t = t := by
  induction t with
  | nil => intros; rfl
  | cons r rs ih =>
      intro prev w hp hw hfull
      have hr : r.length = w := hw r (by simp)
      have hm : List.zipWith merge prev r = r :=
        zipWith_merge_full r prev (by omega) (hfull r (by simp))
      simp only [ffillAux, hm]
      exact congrArg _ (ih r w hr (fun x hx => hw x (by simp [hx]))
        (fun x hx => hfull x (by simp [hx])))

theorem ffill_full (t : Table) (w : ℕ) (hw : rowsWidth t w)
    (hfull : ∀ r ∈ t, r.all Option.isSome = true) : ffill t = t := by
  cases t with
  | nil => rfl
  | cons r rs =>
      rw [ffill]
      exact ffillAux_full (r :: rs) (List.replicate r.length none) w
        (by simpa using hw r (by simp)) hw hfull

theorem dropnaAny_full {α : Type} (t : List (List (Option α)))
    (hfull : ∀ r ∈ t, r.all Option.isSome = true) : dropnaAny t = t :=
  List.filter_eq_self.mpr hfull

theorem posTable_full (t : Table) (hpos : PosTable t) :
    ∀ r ∈ t, r.all Option.isSome = true := by
  intro r hr
  rw [List.all_eq_true]
  intro c hc
  obtain ⟨q, rfl, -⟩ := (cellPos_iff c).mp (hpos r hr c hc)
  rfl

theorem rowLogDiv_all_some (cur prev : Row)
    (hc : ∀ c ∈ cur, cellPos c = true) (hp : ∀ c ∈ prev, cellPos c = true) :
    (rowLogDiv cur prev).all Option.isSome = true := by
  rw [List.all_eq_true]
  intro c hc'
  refine mem_zipWith_imp (fun c p => olog (odiv c p))
    (fun c => cellPos c = true) (fun c => cellPos c = true)
    (fun x => x.isSome = true) ?_ cur prev hc hp c hc'
  intro a b ha hb
  obtain ⟨qa, rfl, hqa⟩ := (cellPos_iff a).mp ha
  obtain ⟨qb, rfl, hqb⟩ := (cellPos_iff b).mp hb
  simp [odiv, olog, if_pos (div_pos hqa hqb)]

theorem pairsFrom_rows_full (rs : List Row) :
    ∀ prev : Row, (∀ c ∈ prev, cellPos c = true) →
      (∀ r ∈ rs, ∀ c ∈ r, cellPos c = true) →
      ∀ row ∈ pairsFrom prev rs, row.all Option.isSome = true := by
  induction rs with
  | nil => intro prev _ _ row hrow; simp [pairsFrom] at hrow
  | cons b cs ih =>
      intro prev hprev hrs row hrow
      simp only [pairsFrom, List.mem_cons] at hrow
      rcases hrow with rfl | hrow
      · exact rowLogDiv_all_some b prev (hrs b (by simp)) hprev
      · exact ih b (hrs b (by simp)) (fun r hr => hrs r (by simp [hr])) row hrow

/-- `log_returns` on a fully populated positive table keeps every
consecutive-pairs row. -/
theorem log_returns_full (r0 : Row) (rs : List Row) (h0 : r0 ≠ [])
    (hpos : PosTable (r0 :: rs)) : log_returns (r0 :: rs) = pairsFrom r0 rs := by
  rw [log_returns_closed r0 rs h0]
  exact List.filter_eq_self.mpr
    (pairsFrom_rows_full rs r0 (hpos r0 (by simp)) (fun r hr => hpos r (by simp [hr])))

theorem col_pairsFrom (rs : List Row) :
    ∀ (prev : Row) (j w : ℕ), j < w → prev.length = w →
      (∀ c ∈ prev, cellPos c = true) → rowsWidth rs w →
      (∀ r ∈ rs, ∀ c ∈ r, cellPos c = true) →
      dropnaCol (col (pairsFrom prev rs) j) =
        logRetQ ((prev.getD j none).getD 0 ::
          rs.map (fun r => (r.getD j none).getD 0)) := by
  induction rs with
  | nil => intros; rfl
  | cons b cs ih =>
      intro prev j w hj hp hprev hw hpos
      have hb : b.length = w := hw b (by simp)
      have hjb : j < b.length := by omega
      have hjp : j < prev.length := by omega
      obtain ⟨qb, hqb, hqbpos⟩ := (cellPos_iff (b.getD j none)).mp
        (hpos b (by simp) _ (getD_mem_of_lt b none j hjb))
      obtain ⟨qp, hqp, hqppos⟩ := (cellPos_iff (prev.getD j none)).mp
        (hprev _ (getD_mem_of_lt prev none j hjp))
      have hcast : ((qb / qp : ℚ) : ℝ) = (qb : ℝ) / (qp : ℝ) := by push_cast; ring
      have hcell : (rowLogDiv b prev).getD j none =
          some (Real.log ((qb : ℝ) / (qp : ℝ))) := by
        rw [rowLogDiv_getD b prev j hjb hjp, hqb, hqp]
        simp [odiv, olog, if_pos (div_pos hqbpos hqppos), hcast]
      have htail := ih b j w hj hb (fun c hc => hpos b (by simp) c hc)
        (fun r hr => hw r (by simp [hr])) (fun r hr => hpos r (by simp [hr]))
      rw [hqb] at htail
      simp only [pairsFrom, col, List.map_cons] at htail ⊢
      rw [hcell, hqb, hqp]
      simp only [dropnaCol, List.filterMap_cons, id] at htail ⊢
      rw [htail]
      simp [logRetQ]

theorem logRetQ_length (l : List ℚ) : ∀ a : ℚ, (logRetQ (a :: l)).length = l.length := by
  induction l with
  | nil => intro a; rfl
  | cons b bs ih => intro a; simp only [logRetQ, List.length_cons, ih b]

theorem getLastD_pos (l : List ℚ) :
    ∀ d : ℚ, 0 < d → (∀ x ∈ l, 0 < x) → 0 < l.getLastD d := by
  induction l with
  | nil => intro d hd _; simpa using hd
  | cons b bs ih =>
      intro d _ h
      rw [List.getLastD_cons]
      exact ih b (h b (by simp)) (fun x hx => h x (by simp [hx]))

theorem logRetQ_sum (l : List ℚ) :
    ∀ a : ℚ, 0 < a → (∀ x ∈ l, 0 < x) →
      (logRetQ (a :: l)).sum = Real.log (((l.getLastD a : ℚ) : ℝ) / (a : ℝ)) := by
  induction l with
  | nil =>
      intro a ha _
      have : ((a : ℚ) : ℝ) ≠ 0 := by exact_mod_cast ne_of_gt ha
      simp [logRetQ, div_self this]
  | cons b bs ih =>
      intro a ha h
      have hb : 0 < b := h b (by simp)
      have hbs : ∀ x ∈ bs, 0 < x := fun x hx => h x (by simp [hx])
      have hL : 0 < bs.getLastD b := getLastD_pos bs b hb hbs
      have ha' : (a : ℝ) ≠ 0 := by exact_mod_cast ne_of_gt ha
      have hb' : (b : ℝ) ≠ 0 := by exact_mod_cast ne_of_gt hb
      have hL' : ((bs.getLastD b : ℚ) : ℝ) ≠ 0 := by exact_mod_cast ne_of_gt hL
      rw [List.getLastD_cons]
      simp only [logRetQ, List.sum_cons, ih b hb hbs]
      rw [← Real.log_mul (div_ne_zero hb' ha') (div_ne_zero hL' hb')]
      congr 1
      field_simp
      ring

/-! Section: C2: the telescoping cumulative-return identity -/

/-- C2.  On every fully populated, strictly positive price table with at
least 2 rows, composing `log_returns` with the cumulative-return aggregation
`exp(sum) - 1` recovers the total simple return `last / first - 1` of each
column, exactly (telescoping sum identity). -/
theorem cumulative_return_telescopes (t : Table) (w j : ℕ) (hw : rowsWidth t w)
    (hpos : PosTable t) (hj : j < w) (h2 : 2 ≤ t.length) :
    cumulative_return (dropnaCol (col (log_returns t) j)) =
      (((colVals t j).getLastD 1 : ℚ) : ℝ) / (((colVals t j).headD 1 : ℚ) : ℝ) - 1 := by
  have hne : t ≠ [] := by
    intro h
    rw [h] at h2
    simp at h2
  obtain ⟨r0, rs, rfl⟩ := List.exists_cons_of_ne_nil hne
  have hr0w : r0.length = w := hw r0 (by simp)
  have h0 : r0 ≠ [] := by
    intro h
    rw [h] at hr0w
    simp at hr0w
    omega
  rw [log_returns_full r0 rs h0 hpos,
    col_pairsFrom rs r0 j w hj hr0w (fun c hc => hpos r0 (by simp) c hc)
      (fun r hr => hw r (by simp [hr])) (fun r hr => hpos r (by simp [hr]))]
  obtain ⟨qa, hqa, hqapos⟩ := (cellPos_iff (r0.getD j none)).mp
    (hpos r0 (by simp) _ (getD_mem_of_lt r0 none j (by omega)))
  have hvals : ∀ x ∈ rs.map (fun r => (r.getD j none).getD 0), 0 < x := by
    intro x hx
    obtain ⟨r, hr, rfl⟩ := List.mem_map.mp hx
    have hrw : r.length = w := hw r (by simp [hr])
    obtain ⟨q, hq, hqpos⟩ := (cellPos_iff (r.getD j none)).mp
      (hpos r (by simp [hr]) _ (getD_mem_of_lt r none j (by omega)))
    rw [hq]
    simpa using hqpos
  have hapos : 0 < (r0.getD j none).getD 0 := by rw [hqa]; simpa using hqapos
  have hLpos : 0 < (rs.map (fun r => (r.getD j none).getD 0)).getLastD
      ((r0.getD j none).getD 0) := getLastD_pos _ _ hapos hvals
  rw [cumulative_return, logRetQ_sum _ _ hapos hvals, Real.exp_log
    (div_pos (by exact_mod_cast hLpos) (by exact_mod_cast hapos))]
  have hcv : colVals (r0 :: rs) j =
      (r0.getD j none).getD 0 :: rs.map (fun r => (r.getD j none).getD 0) := rfl
  rw [hcv, List.getLastD_cons, List.headD_cons]

/-- Witness for C2 at the table `[[1], [2]]`. -/
theorem cumulative_return_telescopes_witness :
    cumulative_return (dropnaCol (col (log_returns [[some (1:ℚ)], [some 2]]) 0)) =
      (((colVals [[some (1:ℚ)], [some 2]] 0).getLastD 1 : ℚ) : ℝ) /
        (((colVals [[some (1:ℚ)], [some 2]] 0).headD 1 : ℚ) : ℝ) - 1 :=
  cumulative_return_telescopes [[some (1:ℚ)], [some 2]] 1 0
    (by norm_num [rowsWidth]) (by norm_num [PosTable, cellPos]) (by decide) (by decide)

/-! Section: C6: missing columns, empty tables, and per-column independence -/

theorem getD_zipWith {α β γ : Type} (f : α → β → γ) (da : α) (db : β) (dc : γ) :
    ∀ (a : List α) (b : List β) (j : ℕ), j < a.length → j < b.length →
      (List.zipWith f a b).getD j dc = f (a.getD j da) (b.getD j db) := by
  intro a
  induction a with
  | nil => intro b j h _; simp at h
  | cons x xs ih =>
      intro b j h1 h2
      cases b with
      | nil => simp at h2
      | cons y ys =>
          cases j with
          | zero => rfl
          | succ k =>
              simp only [List.zipWith_cons_cons, List.getD_cons_succ]
              exact ih ys k (Nat.lt_of_succ_lt_succ h1) (Nat.lt_of_succ_lt_succ h2)

theorem getD_replicate_none (n j : ℕ) :
    (List.replicate n (none : Cell)).getD j none = none := by
  induction n generalizing j with
  | zero => simp
  | succ k ih =>
      cases j with
      | zero => rfl
      | succ m =>
          rw [List.replicate_succ, List.getD_cons_succ]
          exact ih m

theorem ffillAux_missing_col (t : Table) :
    ∀ (prev : Row) (w j : ℕ), prev.length = w → j < w → prev.getD j none = none →
      rowsWidth t w → (∀ r ∈ t, r.getD j none = none) →
      ∀ r ∈ ffillAux prev t, r.length = w ∧ r.getD j none = none := by
  induction t with
  | nil => intro prev w j _ _ _ _ _ r hr; simp [ffillAux] at hr
  | cons r0 rs ih =>
      intro prev w j hp hj hpnone hw hcol r hr
      have hr0 : r0.length = w := hw r0 (by simp)
      have hlen2 : (List.zipWith merge prev r0).length = w := by
        simp [List.length_zipWith, hp, hr0]
      have hnone2 : (List.zipWith merge prev r0).getD j none = none := by
        rw [getD_zipWith merge none none none prev r0 j (by omega) (by omega),
          hpnone, hcol r0 (by simp)]
        rfl
      simp only [ffillAux, List.mem_cons] at hr
      rcases hr with rfl | hr
      · exact ⟨hlen2, hnone2⟩
      · exact ih (List.zipWith merge prev r0) w j hlen2 hj hnone2
          (fun x hx => hw x (by simp [hx])) (fun x hx => hcol x (by simp [hx])) r hr

/-- A symbol whose column is missing in every row makes the forward-filled
table lose all its rows to `dropna`, so its KPI record (and, as C6's
counterexample shows, everyone else's) is omitted. -/
theorem kpiAt_missing_col (t : Table) (w j : ℕ) (hw : rowsWidth t w) (hj : j < w)
    (hcol : ∀ r ∈ t, r.getD j none = none) : kpiAt t j = none := by
  have hbase : dropnaAny (ffill t) = [] := by
    cases t with
    | nil => rfl
    | cons r0 rs =>
        apply List.filter_eq_nil_iff.mpr
        intro r hr
        have hr0 : r0.length = w := hw r0 (by simp)
        have hprop := ffillAux_missing_col (r0 :: rs) (List.replicate r0.length none) w j
          (by simp [hr0]) hj (getD_replicate_none r0.length j) hw hcol r hr
        intro hall
        rw [List.all_eq_true] at hall
        have hmem : r.getD j none ∈ r := getD_mem_of_lt r none j (by omega)
        have := hall _ hmem
        rw [hprop.2] at this
        simp at this
  have hcolempty : kpiCol t j = [] := by
    rw [kpiCol, hbase, log_returns_nil]
    rfl
  rw [kpiAt, hcolempty]
  rfl

/-- `kpiCol` on a fully populated positive table is exactly the per-column
log-return series. -/
theorem kpiCol_full (t : Table) (w j : ℕ) (hw : rowsWidth t w) (hpos : PosTable t)
    (hj : j < w) : kpiCol t j = logRetQ (colVals t j) := by
  cases t with
  | nil => rfl
  | cons r0 rs =>
      have hfull := posTable_full _ hpos
      have hr0 : r0.length = w := hw r0 (by simp)
      have h0 : r0 ≠ [] := by
        intro h
        rw [h] at hr0
        simp at hr0
        omega
      rw [kpiCol, ffill_full _ w hw hfull, dropnaAny_full _ hfull,
        log_returns_full r0 rs h0 hpos,
        dropnaAny_full _ (pairsFrom_rows_full rs r0 (hpos r0 (by simp))
          (fun r hr => hpos r (by simp [hr]))),
        col_pairsFrom rs r0 j w hj hr0 (fun c hc => hpos r0 (by simp) c hc)
          (fun r hr => hw r (by simp [hr])) (fun r hr => hpos r (by simp [hr]))]
      rfl

/-- On a fully populated positive table with at least two rows, every
column's KPI record is present: the record depends only on the column's own
data, so no other symbol can block it. -/
theorem kpiAt_full_some (t : Table) (w j : ℕ) (hw : rowsWidth t w) (hpos : PosTable t)
    (hj : j < w) (h2 : 2 ≤ t.length) : ∃ k : KPI, kpiAt t j = some k := by
  have hcol := kpiCol_full t w j hw hpos hj
  have hne : kpiCol t j ≠ [] := by
    cases t with
    | nil => simp at h2
    | cons r0 rs =>
        cases rs with
        | nil => simp at h2
        | cons r1 rest =>
            intro hnil
            rw [hcol] at hnil
            have : (logRetQ (colVals (r0 :: r1 :: rest) j)).length = 0 := by
              rw [hnil]
              rfl
            rw [show colVals (r0 :: r1 :: rest) j =
                (r0.getD j none).getD 0 :: colVals (r1 :: rest) j from rfl,
              logRetQ_length] at this
            simp [colVals] at this
  rw [kpiAt, if_neg (by simp [hne])]
  exact ⟨_, rfl⟩

/-- C6 (amended).  `compute_kpis` omits the record of a symbol whose column
is entirely missing; on an empty table it returns an empty collection; and
on fully populated positive tables every symbol's record is computed from
its own column alone, so one symbol's NaN metric cannot block the others.
(When a column has leading missing values that survive forward-fill, however,
the row-wise `dropna` can remove other symbols' rows too — see the
counterexample.) -/
theorem compute_kpis_missing_empty :
    (∀ (t : Table) (w j : ℕ), rowsWidth t w → j < w →
      (∀ r ∈ t, r.getD j none = none) → kpiAt t j = none) ∧
    (∀ w : ℕ, compute_kpis [] w = List.replicate w none) ∧
    (∀ (t : Table) (w j : ℕ), rowsWidth t w → PosTable t → j < w → 2 ≤ t.length →
      ∃ k : KPI, kpiAt t j = some k) := by
  refine ⟨kpiAt_missing_col, ?_, fun t w j hw hpos hj h2 => kpiAt_full_some t w j hw hpos hj h2⟩
  intro w
  refine List.eq_replicate_iff.mpr ⟨by simp [compute_kpis], ?_⟩
  intro b hb
  obtain ⟨j, -, rfl⟩ := List.mem_map.mp hb
  rfl

/-- Witness for C6: an all-missing single column is omitted, and in the
fully populated table `[[1], [2], [3]]` the sole symbol's record is present. -/
theorem compute_kpis_missing_empty_witness :
    kpiAt [[none], [none]] 0 = none ∧ compute_kpis [] 2 = [none, none] ∧
    (kpiAt [[some (1:ℚ)], [some 2], [some 3]] 0).isSome = true := by
  have h := compute_kpis_missing_empty
  refine ⟨h.1 [[none], [none]] 1 0 (by norm_num [rowsWidth]) (by decide) (by decide), ?_, ?_⟩
  · rw [h.2.1 2]
    rfl
  · obtain ⟨k, hk⟩ := h.2.2 [[some (1:ℚ)], [some 2], [some 3]] 1 0 (by norm_num [rowsWidth])
      (by norm_num [PosTable, cellPos]) (by decide) (by decide)
    rw [hk]
    rfl

/-- Counterexample to C6 as stated: adding a second symbol whose column is
missing except on the last date removes every row from the forward-filled,
`dropna`-ed table, so the first symbol — which alone would get a KPI record —
is blocked and gets none. -/
theorem compute_kpis_blocking_counterexample :
    kpiAt [[some 1, none], [some 2, none], [some 3, some 5]] 0 = none ∧
    (kpiAt [[some 1], [some 2], [some 3]] 0).isSome = true := by
  constructor
  · rfl
  · obtain ⟨k, hk⟩ := kpiAt_full_some [[some 1], [some 2], [some 3]] 1 0
      (by norm_num [rowsWidth]) (by norm_num [PosTable, cellPos]) (by decide) (by decide)
    rw [hk]
    rfl

/-! Section: C10: the "Daily Return" field -/

theorem length_ffillAux (t : Table) : ∀ prev : Row, (ffillAux prev t).length = t.length := by
  induction t with
  | nil => intro prev; rfl
  | cons r rs ih => intro prev; simp [ffillAux, ih]

theorem length_ffill (t : Table) : (ffill t).length = t.length := by
  cases t with
  | nil => rfl
  | cons r rs => simp [ffill, length_ffillAux]

/-- C10 (amended).  Whenever `compute_kpis` emits a KPI record at all, the
underlying table has at least 2 rows, so the record's "Daily Return" field is
always the ratio `last / second-to-last - 1` of the symbol's column (missing
if either cell is missing); the code's `0` fallback for fewer than 2 rows is
unreachable in the output, because such a symbol is skipped entirely. -/
theorem daily_return_field (t : Table) (j : ℕ) (k : KPI) (h : kpiAt t j = some k) :
    2 ≤ t.length ∧ k.dailyReturn =
      obin (fun a b => a / b - 1) ((col t j).getD (t.length - 1) none)
        ((col t j).getD (t.length - 2) none) := by
  have hlen : (col t j).length = t.length := List.length_map _ _
  by_cases hemp : (kpiCol t j).isEmpty
  · rw [kpiAt, if_pos hemp] at h
    exact absurd h (by simp)
  · have hbase2 : 2 ≤ (dropnaAny (ffill t)).length := by
      by_contra hlt
      push_neg at hlt
      have hnil : kpiCol t j = [] := by
        cases hB : dropnaAny (ffill t) with
        | nil =>
            rw [kpiCol, hB, log_returns_nil]
            rfl
        | cons r0 rs =>
            cases rs with
            | cons r1 rest =>
                rw [hB] at hlt
                simp only [List.length_cons] at hlt
                omega
            | nil =>
                by_cases hr0 : r0 = []
                · subst hr0
                  rw [kpiCol, hB, log_returns, rawLogTable_cons]
                  simp [pairsFrom, dropnaAny, col, dropnaCol]
                · rw [kpiCol, hB, log_returns_closed r0 [] hr0]
                  rfl
      rw [hnil] at hemp
      simp at hemp
    have h2 : 2 ≤ t.length := by
      have hle : (dropnaAny (ffill t)).length ≤ (ffill t).length :=
        List.length_filter_le _ _
      rw [length_ffill] at hle
      omega
    rw [kpiAt, if_neg hemp] at h
    have hk := Option.some.inj h
    refine ⟨h2, ?_⟩
    rw [← hk]
    show daily_ret (col t j) = _
    rw [daily_ret, if_pos (by omega), hlen]

/-- Witness record for C10: the KPI record `compute_kpis` emits for the
single column of the table `[[1], [2], [3]]`. -/
noncomputable def wKPI : KPI :=
  ⟨daily_ret (col [[some (1:ℚ)], [some 2], [some 3]] 0),
   annualized_vol (kpiCol [[some (1:ℚ)], [some 2], [some 3]] 0),
   sharpe_ratio (kpiCol [[some (1:ℚ)], [some 2], [some 3]] 0) 0,
   cumulative_return (kpiCol [[some (1:ℚ)], [some 2], [some 3]] 0),
   max_drawdown (dropnaCol (col [[some (1:ℚ)], [some 2], [some 3]] 0))⟩

theorem kpiAt_wKPI : kpiAt [[some (1:ℚ)], [some 2], [some 3]] 0 = some wKPI := by
  have hne : kpiCol [[some (1:ℚ)], [some 2], [some 3]] 0 ≠ [] := by
    rw [kpiCol_full [[some (1:ℚ)], [some 2], [some 3]] 1 0 (by norm_num [rowsWidth])
      (by norm_num [PosTable, cellPos]) (by decide)]
    intro hnil
    have := congrArg List.length hnil
    rw [show colVals [[some (1:ℚ)], [some 2], [some 3]] 0 = [1, 2, 3] from rfl] at this
    rw [logRetQ_length [2, 3] 1] at this
    simp at this
  rw [kpiAt, if_neg (by simp [hne])]
  rfl

/-- Witness for C10 at the table `[[1], [2], [3]]`. -/
theorem daily_return_field_witness :
    2 ≤ ([[some (1:ℚ)], [some 2], [some 3]] : Table).length ∧
    wKPI.dailyReturn = obin (fun a b => a / b - 1)
      ((col [[some (1:ℚ)], [some 2], [some 3]] 0).getD 2 none)
      ((col [[some (1:ℚ)], [some 2], [some 3]] 0).getD 1 none) :=
  daily_return_field [[some (1:ℚ)], [some 2], [some 3]] 0 wKPI kpiAt_wKPI

/-- Counterexample to C10 as stated: for the one-row table `[[100]]` the
claim asserts a KPI record with Daily Return exactly 0, but `compute_kpis`
emits no record at all for the symbol (its log-return series is empty). -/
theorem daily_return_single_row_omitted :
    kpiAt [[some (100:ℚ)]] 0 = none := by
  simp [kpiAt, kpiCol_single]

/-! Section: C8: the concrete 4-day scenario -/

/-- The spec's scenario table: single-symbol prices 100, 110, 99, 121. -/
def scenarioT : Table := [[some 100], [some 110], [some 99], [some 121]]

theorem scenario_lr : dropnaCol (col (log_returns scenarioT) 0) =
    [Real.log ((110:ℝ)/100), Real.log ((99:ℝ)/110), Real.log ((121:ℝ)/99)] := by
  rw [show scenarioT = [some (100:ℚ)] :: [[some 110], [some 99], [some 121]] from rfl,
    log_returns_full _ _ (by decide) (by norm_num [PosTable, cellPos]),
    col_pairsFrom _ _ 0 1 (by decide) (by decide) (by norm_num [cellPos])
      (by norm_num [rowsWidth]) (by norm_num [cellPos])]
  norm_num [logRetQ]

/-- Taylor-series bound: if the partial sum is numerically close to `-t` and
the tail bound plus that distance is below `b`, then `log (1 - x)` is within
`b` of `t`. -/
theorem log_near (x t b : ℝ) (n : ℕ) (hx : |x| < 1)
    (hbound : |x| ^ (n + 1) / (1 - |x|) +
      |(∑ i ∈ Finset.range n, x ^ (i + 1) / (i + 1)) + t| < b) :
    |Real.log (1 - x) - t| < b := by
  have h := Real.abs_log_sub_add_sum_range_le hx n
  set S := ∑ i ∈ Finset.range n, x ^ (i + 1) / (i + 1) with hS
  calc |Real.log (1 - x) - t|
      = |(S + Real.log (1 - x)) + (-(S + t))| := by
        rw [show Real.log (1 - x) - t = (S + Real.log (1 - x)) + (-(S + t)) by ring]
    _ ≤ |S + Real.log (1 - x)| + |-(S + t)| := abs_add _ _
    _ = |S + Real.log (1 - x)| + |S + t| := by rw [abs_neg]
    _ ≤ |x| ^ (n + 1) / (1 - |x|) + |S + t| := add_le_add_right h _
    _ < b := hbound

theorem abs_tenth : |(-(1/10) : ℝ)| = 1/10 := by
  rw [abs_neg, abs_of_nonneg]
  norm_num

theorem abs_tenth' : |((1/10) : ℝ)| = 1/10 := by
  rw [abs_of_nonneg]
  norm_num

theorem abs_two_elevenths : |((2/11) : ℝ)| = 2/11 := by
  rw [abs_of_nonneg]
  norm_num

/-- Numeric bound: `ln(110/100) = ln 1.1` is within `2e-4` of `0.09531`. -/
theorem log_bound_up : |Real.log ((110:ℝ)/100) - 0.09531| < 0.0002 := by
  have hx : |(-(1/10) : ℝ)| < 1 := by rw [abs_tenth]; norm_num
  have h110 : (110:ℝ)/100 = 1 - (-(1/10)) := by norm_num
  rw [h110]
  apply log_near _ _ _ 4 hx
  rw [abs_tenth]
  have hS : (∑ i ∈ Finset.range 4, (-(1/10) : ℝ) ^ (i + 1) / (i + 1)) = -11437/120000 := by
    simp [Finset.sum_range_succ]
    norm_num
  rw [hS, show (-(11437:ℝ)/120000) + 0.09531 = 1/600000 by norm_num,
    abs_of_nonneg (by norm_num : (0:ℝ) ≤ 1/600000)]
  norm_num

/-- Numeric bound: `ln(99/110) = ln 0.9` is within `2e-4` of `-0.10536`. -/
theorem log_bound_down : |Real.log ((99:ℝ)/110) - (-0.10536)| < 0.0002 := by
  have hx : |((1/10) : ℝ)| < 1 := by rw [abs_tenth']; norm_num
  have h99 : (99:ℝ)/110 = 1 - 1/10 := by norm_num
  rw [h99]
  apply log_near _ _ _ 4 hx
  rw [abs_tenth']
  have hS : (∑ i ∈ Finset.range 4, ((1/10) : ℝ) ^ (i + 1) / (i + 1)) = 12643/120000 := by
    simp [Finset.sum_range_succ]
    norm_num
  rw [hS, show ((12643:ℝ)/120000) + (-0.10536) = -1/600000 by norm_num,
    abs_of_nonpos (by norm_num : (-(1:ℝ)/600000) ≤ 0)]
  norm_num

/-- Numeric bound: `ln(121/99) = ln(11/9)` is within `2e-4` of `0.20067`. -/
theorem log_bound_last : |Real.log ((121:ℝ)/99) - 0.20067| < 0.0002 := by
  have hx : |((2/11) : ℝ)| < 1 := by rw [abs_two_elevenths]; norm_num
  have h121 : (121:ℝ)/99 = (1 - 2/11)⁻¹ := by norm_num
  rw [h121, Real.log_inv,
    show -Real.log (1 - (2:ℝ)/11) - 0.20067 = -(Real.log (1 - (2:ℝ)/11) - (-0.20067)) by ring,
    abs_neg]
  apply log_near _ _ _ 6 hx
  rw [abs_two_elevenths]
  have hS : (∑ i ∈ Finset.range 6, ((2/11) : ℝ) ^ (i + 1) / (i + 1)) =
      1777492/8857805 := by
    simp [Finset.sum_range_succ]
    norm_num
  rw [hS]
  rw [show ((1777492:ℝ)/8857805) + (-0.20067) = -74587/177156100000 by norm_num,
    abs_of_nonpos (by norm_num : (-(74587:ℝ)/177156100000) ≤ 0)]
  norm_num

/-- C8 (amended).  For the scenario prices `[100, 110, 99, 121]`: the log
returns are `[ln 1.1, ln 0.9, ln(11/9)] ≈ [0.09531, -0.10536, 0.20067]` (the
spec's quoted `-0.10436` is off by `0.001`); the cumulative return is exactly
`121/100 - 1 = 0.21`; the maximum drawdown is exactly `(99-110)/110 = -1/10`;
and the base-100 series is the price series itself. -/
theorem scenario_prices_kpis :
    dropnaCol (col (log_returns scenarioT) 0) =
      [Real.log ((110:ℝ)/100), Real.log ((99:ℝ)/110), Real.log ((121:ℝ)/99)] ∧
    |Real.log ((110:ℝ)/100) - 0.09531| < 0.0002 ∧
    |Real.log ((99:ℝ)/110) - (-0.10536)| < 0.0002 ∧
    |Real.log ((121:ℝ)/99) - 0.20067| < 0.0002 ∧
    cumulative_return (dropnaCol (col (log_returns scenarioT) 0)) = 0.21 ∧
    max_drawdown [100, 110, 99, 121] = some (-(1:ℚ)/10) ∧
    base100 scenarioT = scenarioT := by
  refine ⟨scenario_lr, log_bound_up, log_bound_down, log_bound_last, ?_,
    by norm_num [max_drawdown, cummax, cummaxFrom, listMin, max_def, min_def],
    by norm_num [base100, scenarioT, odiv]⟩
  rw [cumulative_return, scenario_lr]
  simp only [List.sum_cons, List.sum_nil]
  have h1 : Real.log ((110:ℝ)/100) + (Real.log ((99:ℝ)/110) +
      (Real.log ((121:ℝ)/99) + 0)) = Real.log ((121:ℝ)/100) := by
    rw [add_zero, ← Real.log_mul (by norm_num) (by norm_num),
      ← Real.log_mul (by norm_num) (by norm_num)]
    norm_num
  rw [h1, Real.exp_log (by norm_num)]
  norm_num

/-- Counterexample to C8 as stated: the scenario's second log return is
`ln(99/110) = ln 0.9 ≈ -0.10536`, which is not within `2e-4` of the spec's
quoted `-0.10436` — that figure is `0.001` away. -/
theorem scenario_log_return_typo :
    ¬ |(dropnaCol (col (log_returns scenarioT) 0)).getD 1 0 - (-0.10436)| < 0.0002 := by
  rw [scenario_lr]
  intro hcon
  have hg : ([Real.log ((110:ℝ)/100), Real.log ((99:ℝ)/110),
      Real.log ((121:ℝ)/99)]).getD 1 0 = Real.log ((99:ℝ)/110) := rfl
  rw [hg] at hcon
  have htri := abs_sub_le (-0.10536 : ℝ) (Real.log ((99:ℝ)/110)) (-0.10436)
  rw [abs_sub_comm (-0.10536 : ℝ) (Real.log ((99:ℝ)/110))] at htri
  have hc : |(-0.10536 : ℝ) - (-0.10436)| = 0.001 := by
    rw [show (-0.10536 : ℝ) - (-0.10436) = -0.001 by norm_num,
      abs_of_nonpos (by norm_num : (-0.001 : ℝ) ≤ 0)]
    norm_num
  rw [hc] at htri
  have h2 := log_bound_down
  linarith

end Phrono
